import Mathlib

/-!
Verification of the text-editing / syntax-highlighting core in
`src/src-wasm/src/lib.rs` (the `md` editor's WASM buffer core).

The buffer is modelled as a `List Char` (a sequence of Unicode scalar
values, exactly as `ropey::Rope` indexes it by chars).  Rust `usize`
arithmetic on indices never overflows for list-sized values, so plain
`Nat` is used.  Byte lengths (Rust `str::len`) are modelled with
`Char.utf8Size`, which is the UTF-8 byte count of a scalar value.
-/

namespace MdCore

/-- The backtick character, written via its code point. -/
def btick : Char := Char.ofNat 96

/-- Rust `char::is_whitespace`: the Unicode White_Space property. -/
def rustIsWhitespace (c : Char) : Bool :=
  c.toNat = 32 || c.toNat = 9 || c.toNat = 10 || c.toNat = 11 || c.toNat = 12 ||
  c.toNat = 13 || c.toNat = 133 || c.toNat = 160 || c.toNat = 5760 ||
  (8192 ≤ c.toNat && c.toNat ≤ 8202) || c.toNat = 8232 || c.toNat = 8233 ||
  c.toNat = 8239 || c.toNat = 8287 || c.toNat = 12288

/-- Rust `str::trim_start`. -/
def trimStart (l : List Char) : List Char := l.dropWhile rustIsWhitespace

/-- Rust `str::trim_end`. -/
def trimEnd (l : List Char) : List Char := (l.reverse.dropWhile rustIsWhitespace).reverse

/-- Rust `str::trim` (strip leading and trailing whitespace). -/
def rustTrim (l : List Char) : List Char := trimStart (trimEnd l)

/-- Rust `s.trim_end_matches('\n')`: drop every trailing newline. -/
def trimEndNl (l : List Char) : List Char := (l.reverse.dropWhile (fun c => c == '\n')).reverse

/-- Rust `str::len`: the UTF-8 byte length of the text. -/
def utf8Len : List Char → Nat
  | [] => 0
  | c :: r => c.utf8Size + utf8Len r

/-- Number of newline characters, used to model `ropey`'s line counting. -/
def countNl : List Char → Nat
  | [] => 0
  | c :: r => (if c = '\n' then 1 else 0) + countNl r

/-- `Rope::len_lines`: one more than the number of newlines. -/
def numLines (s : List Char) : Nat := countNl s + 1

/-- `Rope::line_to_char`: the char offset of the start of line `l`
(the length of the shortest prefix containing `l` newlines; the total
length if there are fewer than `l` newlines). -/
def line_to_char : List Char → Nat → Nat
  | _, 0 => 0
  | [], _ + 1 => 0
  | c :: r, l + 1 => if c = '\n' then 1 + line_to_char r l else 1 + line_to_char r (l + 1)

/-- `Rope::char_to_line`: the line containing char offset `o`
(`o = len_chars` maps to the last line). -/
def char_to_line (s : List Char) (o : Nat) : Nat := countNl (s.take o)

/-- `Rope::line`: the content of line `i` including its trailing newline
(the last line has none). -/
def ropeLine (s : List Char) (i : Nat) : List Char :=
  (s.take (line_to_char s (i + 1))).drop (line_to_char s i)

/-- `insert_at` (lib.rs:44): clamp the position to the buffer length,
then splice the text in. -/
def insert_at (buf : List Char) (pos : Nat) (text : List Char) : List Char :=
  let p := min pos buf.length
  buf.take p ++ text ++ buf.drop p

/-- `delete_range` (lib.rs:54): clamp both bounds to the buffer length and
remove the range only when `start < end`. -/
def delete_range (buf : List Char) (start fin : Nat) : List Char :=
  let s := min start buf.length
  let e := min fin buf.length
  if s < e then buf.take s ++ buf.drop e else buf

/-- `line_col_to_offset` (lib.rs:1575): out-of-range lines map to the buffer
length; otherwise the column is clamped to `line_content.trim_end_matches('\n').len()`
-- note this is the *byte* length of the line -- and added to the line start. -/
def line_col_to_offset (s : List Char) (line col : Nat) : Nat :=
  if numLines s ≤ line then s.length
  else line_to_char s line + min col (utf8Len (trimEndNl (ropeLine s line)))

/-- `get_cursor_position` (lib.rs:1510): clamp the cursor, then derive
`(line, col, offset)` with `line = char_to_line`, `col = offset - line_to_char line`. -/
def get_cursor_position (s : List Char) (cursor : Nat) : Nat × Nat × Nat :=
  let c := min cursor s.length
  let line := char_to_line s c
  (line, c - line_to_char s line, c)

/-! Helper lemmas about the rope model. -/

lemma dropWhile_append_last {p : Char → Bool} {c : Char} (hc : p c = false) :
    ∀ ys : List Char, List.dropWhile p (ys ++ [c]) = List.dropWhile p ys ++ [c] := by
  intro ys
  induction ys with
  | nil => simp [List.dropWhile, hc]
  | cons y t ih =>
    by_cases hy : p y
    · simpa [List.dropWhile_cons, hy] using ih
    · simp [List.dropWhile_cons, hy]

lemma trimEndNl_cons {c : Char} (hc : c ≠ '\n') (X : List Char) :
    trimEndNl (c :: X) = c :: trimEndNl X := by
  unfold trimEndNl
  rw [List.reverse_cons, dropWhile_append_last (by simp [hc]), List.reverse_append]
  simp

lemma countNl_append : ∀ a b : List Char, countNl (a ++ b) = countNl a + countNl b := by
  intro a b
  induction a with
  | nil => simp [countNl]
  | cons c r ih => simp [countNl, ih]; omega

lemma countNl_take_le (s : List Char) (o : Nat) : countNl (s.take o) ≤ countNl s := by
  conv_rhs => rw [← List.take_append_drop o s]
  rw [countNl_append]
  omega

lemma char_to_line_lt (s : List Char) (o : Nat) : char_to_line s o < numLines s := by
  have := countNl_take_le s o
  unfold char_to_line numLines
  omega

lemma length_le_utf8Len : ∀ l : List Char, l.length ≤ utf8Len l := by
  intro l
  induction l with
  | nil => simp [utf8Len]
  | cons c r ih =>
    have := Char.utf8Size_pos c
    simp [utf8Len]
    omega

lemma countNl_cons_nl (r : List Char) : countNl ('\n' :: r) = countNl r + 1 := by
  simp [countNl]
  omega

lemma countNl_cons_other {c : Char} (hc : c ≠ '\n') (r : List Char) :
    countNl (c :: r) = countNl r := by
  simp [countNl, hc]

lemma line_to_char_zero (s : List Char) : line_to_char s 0 = 0 := by
  cases s <;> simp [line_to_char]

lemma line_to_char_cons_nl (r : List Char) (l : Nat) :
    line_to_char ('\n' :: r) (l + 1) = 1 + line_to_char r l := by
  simp [line_to_char]

lemma line_to_char_cons_other {c : Char} (hc : c ≠ '\n') (r : List Char) (l : Nat) :
    line_to_char (c :: r) (l + 1) = 1 + line_to_char r (l + 1) := by
  simp [line_to_char, hc]

lemma cons_take (c : Char) (t : List Char) (a : Nat) :
    (c :: t).take (1 + a) = c :: t.take a := by
  simp [Nat.add_comm 1, List.take_succ_cons]

lemma cons_take_drop (c : Char) (t : List Char) (a b : Nat) :
    ((c :: t).take (1 + a)).drop (1 + b) = (t.take a).drop b := by
  simp [Nat.add_comm 1, List.take_succ_cons, List.drop_succ_cons]

lemma ropeLine_cons_nl (r : List Char) (m : Nat) :
    ropeLine ('\n' :: r) (m + 1) = ropeLine r m := by
  unfold ropeLine
  rw [line_to_char_cons_nl r (m + 1), line_to_char_cons_nl r m, cons_take_drop]

lemma ropeLine_cons_other {c : Char} (hc : c ≠ '\n') (r : List Char) (m : Nat) :
    ropeLine (c :: r) (m + 1) = ropeLine r (m + 1) := by
  unfold ropeLine
  rw [line_to_char_cons_other hc r (m + 1), line_to_char_cons_other hc r m, cons_take_drop]

lemma ropeLine_cons_zero {c : Char} (hc : c ≠ '\n') (r : List Char) :
    ropeLine (c :: r) 0 = c :: ropeLine r 0 := by
  unfold ropeLine
  rw [line_to_char_zero, line_to_char_zero, List.drop_zero, List.drop_zero,
    line_to_char_cons_other hc r 0, cons_take]

lemma line_to_char_le (s : List Char) :
    ∀ o : Nat, o ≤ s.length → line_to_char s (countNl (s.take o)) ≤ o := by
  induction s with
  | nil =>
    intro o h
    simp at h
    simp [h, countNl, line_to_char]
  | cons c r ih =>
    intro o h
    cases o with
    | zero => simp [countNl, line_to_char]
    | succ k =>
      have hk : k ≤ r.length := by simpa using h
      rw [List.take_succ_cons]
      by_cases hc : c = '\n'
      · subst hc
        rw [countNl_cons_nl, line_to_char_cons_nl]
        have := ih k hk
        omega
      · rw [countNl_cons_other hc]
        cases hm : countNl (r.take k) with
        | zero => rw [line_to_char_zero]; omega
        | succ m' =>
          rw [line_to_char_cons_other hc]
          have := ih k hk
          rw [hm] at this
          omega

lemma col_le_trimmed (s : List Char) :
    ∀ o : Nat, o ≤ s.length →
      o - line_to_char s (countNl (s.take o)) ≤
        (trimEndNl (ropeLine s (countNl (s.take o)))).length := by
  induction s with
  | nil =>
    intro o h
    simp at h
    simp [h, countNl, line_to_char]
  | cons c r ih =>
    intro o h
    cases o with
    | zero => simp [countNl, line_to_char]
    | succ k =>
      have hk : k ≤ r.length := by simpa using h
      rw [List.take_succ_cons]
      by_cases hc : c = '\n'
      · subst hc
        rw [countNl_cons_nl, line_to_char_cons_nl, ropeLine_cons_nl]
        have := ih k hk
        omega
      · rw [countNl_cons_other hc]
        cases hm : countNl (r.take k) with
        | zero =>
          rw [line_to_char_zero, ropeLine_cons_zero hc, trimEndNl_cons hc]
          have := ih k hk
          rw [hm, line_to_char_zero] at this
          simp only [List.length_cons]
          omega
        | succ m' =>
          rw [line_to_char_cons_other hc, ropeLine_cons_other hc]
          have := ih k hk
          rw [hm] at this
          omega

/-- C4: converting a valid offset to a `(line, col)` position the way
`get_cursor_position` does and mapping it back through `line_col_to_offset`
returns exactly the original offset. -/
theorem offset_position_roundtrip (s : List Char) (o : Nat) (h : o ≤ s.length) :
    line_col_to_offset s (get_cursor_position s o).1 (get_cursor_position s o).2.1 = o := by
  have hmin : min o s.length = o := Nat.min_eq_left h
  unfold get_cursor_position line_col_to_offset
  simp only [hmin]
  have hline := char_to_line_lt s o
  rw [if_neg (by omega)]
  unfold char_to_line
  have hA := line_to_char_le s o h
  have hC := col_le_trimmed s o h
  have hU := length_le_utf8Len (trimEndNl (ropeLine s (countNl (s.take o))))
  have hmin2 : min (o - line_to_char s (countNl (s.take o)))
      (utf8Len (trimEndNl (ropeLine s (countNl (s.take o))))) =
      o - line_to_char s (countNl (s.take o)) := Nat.min_eq_left (by omega)
  rw [hmin2]
  omega

/-- Witness for C4 at buffer `"ab\ncd"`, offset `4`. -/
theorem offset_position_roundtrip_witness :
    4 ≤ ("ab\ncd").toList.length ∧
    line_col_to_offset ("ab\ncd").toList
      (get_cursor_position ("ab\ncd").toList 4).1
      (get_cursor_position ("ab\ncd").toList 4).2.1 = 4 :=
  ⟨by decide, offset_position_roundtrip ("ab\ncd").toList 4 (by decide)⟩

/-- C1 (code bug): `line_col_to_offset` clamps the column to the line's
UTF-8 *byte* length, so on the one-character buffer `"é"` (2 bytes) it
returns offset 2, which exceeds the buffer's character count of 1. -/
theorem line_col_to_offset_bytelen_overflow :
    line_col_to_offset (("é").toList) 0 5 = 2 ∧ (("é").toList).length = 1 := by
  decide

/-- C7: `insert_at` always produces a buffer of length `len + |text|`,
inserting at the end when the position is past the end; `delete_range`
is the identity whenever the clamped start is at or past the clamped end,
and never grows the buffer. -/
theorem insert_delete_clamped (buf text : List Char) (pos a b : Nat) :
    (insert_at buf pos text).length = buf.length + text.length ∧
    (buf.length ≤ pos → insert_at buf pos text = buf ++ text) ∧
    (min b buf.length ≤ min a buf.length → delete_range buf a b = buf) ∧
    (delete_range buf a b).length ≤ buf.length := by
  refine ⟨?_, ?_, ?_, ?_⟩
  · unfold insert_at
    simp only [List.length_append, List.length_take, List.length_drop]
    omega
  · intro h
    unfold insert_at
    simp [Nat.min_eq_right h]
  · intro h
    unfold delete_range
    rw [if_neg (by omega)]
  · unfold delete_range
    dsimp only
    split
    · simp only [List.length_append, List.length_take, List.length_drop]
      omega
    · exact Nat.le_refl _

/-- Witness for C7: `insertAt(99, "x")` on `"hello"` appends at the end and
`deleteRange(5, 2)` is a no-op. -/
theorem insert_delete_clamped_witness :
    (("hello").toList.length ≤ 99 ∧
      insert_at ("hello").toList 99 ("x").toList = ("hello").toList ++ ("x").toList) ∧
    (min 2 ("hello").toList.length ≤ min 5 ("hello").toList.length ∧
      delete_range ("hello").toList 5 2 = ("hello").toList) :=
  ⟨⟨by decide, (insert_delete_clamped ("hello").toList ("x").toList 99 5 2).2.1 (by decide)⟩,
   ⟨by decide, (insert_delete_clamped ("hello").toList ("x").toList 99 5 2).2.2.1 (by decide)⟩⟩

/-! Syntax highlighting: spans, inline formatting, line classification. -/

/-- A highlighted span (`Span` in lib.rs:130): a run of text plus a style tag. -/
structure Span where
  text : List Char
  style : String
deriving DecidableEq

/-- The fence-tracking state threaded through `highlight_line`
(the pair of `&mut bool` / `&mut String` arguments in lib.rs:152). -/
structure HlState where
  inCodeBlock : Bool
  codeLang : List Char
deriving DecidableEq

/-- The `"```"` fence delimiter. -/
def fenceDelim : List Char := [btick, btick, btick]

/-- Flush the pending plain-text accumulator as a `"text"` span
(the `if !current.is_empty() { spans.push(...) }` idiom of `parse_inline`). -/
def flushCur (cur : List Char) : List Span :=
  if cur = [] then [] else [⟨cur, "text"⟩]

/-- Scan up to (and including, in the second component) the first occurrence
of the character `t`; models the `while i < len && chars[i] != t` loops. -/
def breakAt (t : Char) : List Char → List Char × List Char
  | [] => ([], [])
  | c :: r =>
    if c = t then ([], c :: r)
    else
      let p := breakAt t r
      (c :: p.1, p.2)

lemma breakAt_append (t : Char) : ∀ l : List Char, (breakAt t l).1 ++ (breakAt t l).2 = l := by
  intro l
  induction l with
  | nil => rfl
  | cons c r ih =>
    by_cases hc : c = t
    · simp [breakAt, hc]
    · simp [breakAt, hc, ih]

lemma breakAt_snd_length (t : Char) (l : List Char) : (breakAt t l).2.length ≤ l.length := by
  have h := breakAt_append t l
  have : (breakAt t l).1.length + (breakAt t l).2.length = l.length := by
    rw [← List.length_append, h]
  omega

lemma breakAt_snd_head (t : Char) :
    ∀ l : List Char, (breakAt t l).2 = [] ∨ ∃ r, (breakAt t l).2 = t :: r := by
  intro l
  induction l with
  | nil => left; rfl
  | cons c r ih =>
    by_cases hc : c = t
    · right; exact ⟨r, by simp [breakAt, hc]⟩
    · simpa [breakAt, hc] using ih

/-- Scan up to the first `"**"`; models the bold-matching loop
`while i + 1 < len && !(chars[i] == '*' && chars[i+1] == '*')`: the scan
stops either at a `"**"` or with at most one character left. -/
def scanBold : List Char → List Char × List Char
  | [] => ([], [])
  | [c] => ([], [c])
  | c :: d :: r =>
    if c = '*' ∧ d = '*' then ([], c :: d :: r)
    else
      let p := scanBold (d :: r)
      (c :: p.1, p.2)

lemma scanBold_append : ∀ l : List Char, (scanBold l).1 ++ (scanBold l).2 = l := by
  intro l
  induction l with
  | nil => rfl
  | cons c r ih =>
    cases r with
    | nil => rfl
    | cons d r2 =>
      by_cases hcd : c = '*' ∧ d = '*'
      · simp [scanBold, hcd]
      · simp only [scanBold, if_neg hcd]
        simpa using ih

lemma scanBold_snd_length (l : List Char) : (scanBold l).2.length ≤ l.length := by
  have h := scanBold_append l
  have : (scanBold l).1.length + (scanBold l).2.length = l.length := by
    rw [← List.length_append, h]
  omega

/-- Model of Rust `trimmed_start.find(". ")`: the text before the first
`". "` occurrence and the text after it, if any. -/
def findDotSpace : List Char → Option (List Char × List Char)
  | [] => none
  | '.' :: ' ' :: r => some ([], r)
  | c :: r =>
    match findDotSpace r with
    | some (a, b) => some (c :: a, b)
    | none => none

/-- `parse_inline`'s scanning loop (lib.rs:276): `cur` is the pending
`current` text accumulator, the second argument the remaining characters. -/
def parse_inline_aux : List Char → List Char → List Span
  | cur, [] => flushCur cur
  | cur, c :: xs =>
    if c = btick then
      match hp : breakAt btick xs with
      | (code, []) => flushCur cur ++ parse_inline_aux (btick :: code) xs
      | (code, _ :: pst) =>
          flushCur cur ++ (⟨btick :: (code ++ [btick]), "inline-code"⟩ :: parse_inline_aux [] pst)
    else if hb : c = '*' ∧ xs.head? = some '*' then
      match hq : scanBold xs.tail with
      | (bc, '*' :: '*' :: pst) =>
          flushCur cur ++ (⟨'*' :: '*' :: (bc ++ ['*', '*']), "bold"⟩ :: parse_inline_aux [] pst)
      | (bc, short) => flushCur cur ++ parse_inline_aux ('*' :: '*' :: bc) short
    else if hi : c = '*' ∨ c = '_' then
      match hr : breakAt c xs with
      | (ic, []) => flushCur cur ++ parse_inline_aux (c :: ic) []
      | ([], _ :: _) => flushCur cur ++ parse_inline_aux [c] xs
      | (ic, _ :: pst) =>
          flushCur cur ++ (⟨c :: (ic ++ [c]), "italic"⟩ :: parse_inline_aux [] pst)
    else if c = '[' then
      match hs : breakAt ']' xs with
      | (ltxt, ']' :: '(' :: xs2) =>
        (match hu : breakAt ')' xs2 with
          | (lurl, ')' :: pst) =>
              flushCur cur ++
                (⟨('[' :: ltxt) ++ (']' :: '(' :: lurl) ++ [')'], "link"⟩ :: parse_inline_aux [] pst)
          | (_lurl, _) => flushCur cur ++ parse_inline_aux ['['] xs)
      | (_ltxt, _) => flushCur cur ++ parse_inline_aux ['['] xs
    else parse_inline_aux (cur ++ [c]) xs
termination_by _ rest => rest.length
decreasing_by
  all_goals simp_wf
  all_goals
    first
    | omega
    | (have e := breakAt_append btick xs
       rw [hp] at e
       have e2 := congrArg List.length e
       simp at e2
       omega)
    | (have e := scanBold_append xs.tail
       rw [hq] at e
       have e2 := congrArg List.length e
       have ht : xs.tail.length ≤ xs.length := by cases xs <;> simp
       simp at e2
       omega)
    | (have e := scanBold_snd_length xs.tail
       rw [hq] at e
       have ht : xs.tail.length ≤ xs.length := by cases xs <;> simp
       simp at e
       omega)
    | (have e := scanBold_snd_length xs.tail
       rw [hq] at e
       have ht : xs.tail.length ≤ xs.length := by cases xs <;> simp
       omega)
    | (have e := breakAt_append c xs
       rw [hr] at e
       have e2 := congrArg List.length e
       simp at e2
       omega)
    | (have e := breakAt_append ']' xs
       rw [hs] at e
       have e2 := congrArg List.length e
       have e3 := breakAt_append ')' xs2
       rw [hu] at e3
       have e4 := congrArg List.length e3
       simp at e2 e4
       omega)

/-- `parse_inline` (lib.rs:276). -/
def parse_inline (text : List Char) : List Span := parse_inline_aux [] text

/-- The language tag extracted from a fence line:
`trimmed[3..].trim().to_lowercase()` (lib.rs:169, lib.rs:1452).
Lowercasing is modelled per scalar value with `Char.toLower`. -/
def langOf (content : List Char) : List Char :=
  (rustTrim ((trimStart content).drop 3)).map Char.toLower

/-- Heading level: the count of leading `#` characters (lib.rs:194). -/
def headingLevel (content : List Char) : Nat :=
  (content.takeWhile (fun c => c == '#')).length

/-- `highlight_line` (lib.rs:152).  The language-specific code highlighting
dispatch `highlight_code` (lib.rs:434) is abstracted as the parameter `hc`,
which receives the line content and the current fence language; every
theorem below holds for each choice of `hc`. -/
def highlight_line (hc : List Char → List Char → List Span) (content : List Char)
    (st : HlState) : List Span × HlState :=
  if (trimStart content).take 3 = fenceDelim then
    if st.inCodeBlock then
      ([⟨content, "code-fence"⟩], ⟨false, []⟩)
    else
      ([⟨content, "code-fence"⟩], ⟨true, langOf content⟩)
  else if st.inCodeBlock then
    (hc content st.codeLang, st)
  else if content = [] then
    ([⟨[], "text"⟩], st)
  else if content.head? = some '#' ∧ headingLevel content ≤ 6 ∧
      content[headingLevel content]? = some ' ' then
    ([⟨content, ("heading h") ++ toString (headingLevel content)⟩], st)
  else if content.head? = some '>' then
    ([⟨content, "blockquote"⟩], st)
  else if rustTrim content = ("---").toList ∨ rustTrim content = ("***").toList ∨
      rustTrim content = ("___").toList then
    ([⟨content, "hr"⟩], st)
  else if (trimStart content).take 2 = ("- ").toList ∨
      (trimStart content).take 2 = ("* ").toList ∨
      (trimStart content).take 2 = ("+ ").toList then
    (⟨List.replicate (utf8Len content - utf8Len (trimStart content)) ' ', "text"⟩ ::
      ⟨(trimStart content).take 2, "list-marker"⟩ ::
      parse_inline ((trimStart content).drop 2), st)
  else
    match findDotSpace (trimStart content) with
    | some (pre, rest) =>
      if pre.all Char.isDigit then
        (⟨List.replicate (utf8Len content - utf8Len (trimStart content)) ' ', "text"⟩ ::
          ⟨pre ++ ['.'], "list-marker"⟩ :: parse_inline rest, st)
      else if content.contains '|' then
        ([⟨content, "table"⟩], st)
      else
        (parse_inline content, st)
    | none =>
      if content.contains '|' then
        ([⟨content, "table"⟩], st)
      else
        (parse_inline content, st)

/-- The fence-state toggle performed per line by the replay loop of
`get_highlighted_lines` (lib.rs:1443-1455). -/
def fenceToggle (lineContent : List Char) (h : HlState) : HlState :=
  if (trimStart lineContent).take 3 = fenceDelim then
    if h.inCodeBlock then ⟨false, []⟩
    else ⟨true, langOf lineContent⟩
  else h

/-- The fence state obtained by replaying lines `0..n` from document start,
as the `for i in 0..start` loop of `get_highlighted_lines` does. -/
def stateUpTo (s : List Char) : Nat → HlState
  | 0 => ⟨false, []⟩
  | n + 1 => fenceToggle (ropeLine s n) (stateUpTo s n)

/-- The window mapping of `get_highlighted_lines`: highlight `n` lines
starting at line `i`, threading the fence state; line numbers are 1-based. -/
def hlLines (hc : List Char → List Char → List Span) (s : List Char) :
    Nat → Nat → HlState → List (Nat × List Span)
  | _, 0, _ => []
  | i, n + 1, h =>
    let p := highlight_line hc (trimEndNl (ropeLine s i)) h
    (i + 1, p.1) :: hlLines hc s (i + 1) n p.2

/-- `get_highlighted_lines` (lib.rs:1431): clamp the window, replay fence
state from the document start, then highlight the requested lines. -/
def get_highlighted_lines (hc : List Char → List Char → List Span) (s : List Char)
    (start count : Nat) : List (Nat × List Span) :=
  let total := numLines s
  let st := min start total
  let en := min (start + count) total
  hlLines hc s st (en - st) (stateUpTo s st)

/-- A concrete instantiation of the abstract code highlighter: the fallback
arm of `highlight_code` for an unrecognized language (lib.rs:452). -/
def hcDefault (content : List Char) (_lang : List Char) : List Span :=
  [⟨content, "code-block"⟩]

/-- Concatenation of the text of a span list. -/
def concatSpans : List Span → List Char
  | [] => []
  | s :: r => s.text ++ concatSpans r

lemma concatSpans_append (a b : List Span) :
    concatSpans (a ++ b) = concatSpans a ++ concatSpans b := by
  induction a with
  | nil => rfl
  | cons s r ih => simp [concatSpans, ih]

lemma concatSpans_flush (cur : List Char) : concatSpans (flushCur cur) = cur := by
  unfold flushCur
  split
  · rename_i h
    simp [concatSpans, h]
  · simp [concatSpans]

/-- When `breakAt` finds the target, the second component starts with it and
the two components reassemble the input. -/
lemma breakAt_snd_eq (t : Char) (l a : List Char) (x : Char) (r : List Char)
    (h : breakAt t l = (a, x :: r)) : x = t ∧ a ++ x :: r = l := by
  have h1 := breakAt_append t l
  have h2 := breakAt_snd_head t l
  rw [h] at h1 h2
  refine ⟨?_, by simpa using h1⟩
  rcases h2 with h2 | ⟨r2, hr2⟩
  · simp at h2
  · have h3 : x :: r = t :: r2 := hr2
    injection h3

/-- The inline formatter loses no characters on backtick-free input: the
concatenated span text is the accumulator followed by the remaining input.
(The restriction is needed: on an unclosed inline-code delimiter the scanner
pushes the scanned content into `current` *and* rescans it, duplicating it
in the output.) -/
lemma parse_inline_aux_concat : ∀ (cur rest : List Char), btick ∉ rest →
    concatSpans (parse_inline_aux cur rest) = cur ++ rest := by
  intro cur rest
  induction cur, rest using parse_inline_aux.induct with
  | case1 cur =>
    intro _
    simp [parse_inline_aux, concatSpans_flush]
  | case2 cur xs code hp ih =>
    intro h
    exact absurd (List.mem_cons_self btick xs) h
  | case3 cur xs code t pst hp ih =>
    intro h
    exact absurd (List.mem_cons_self btick xs) h
  | case4 cur c xs hbt hb bc pst hq ih =>
    intro h
    obtain ⟨hc, hh⟩ := hb
    subst hc
    cases xs with
    | nil => simp at hh
    | cons d xt =>
      simp only [List.head?_cons, Option.some.injEq] at hh
      subst hh
      simp only [List.tail_cons] at hq
      have h1 := scanBold_append xt
      rw [hq] at h1
      simp only [Prod.fst, Prod.snd] at h1
      have hnp : btick ∉ pst := by
        intro hm
        apply h
        have hx : btick ∈ xt := by
          rw [← h1]
          exact List.mem_append.mpr
            (Or.inr (List.mem_cons_of_mem _ (List.mem_cons_of_mem _ hm)))
        exact List.mem_cons_of_mem _ (List.mem_cons_of_mem _ hx)
      have ih2 := ih hnp
      rw [parse_inline_aux.eq_2, if_neg hbt, dif_pos ⟨rfl, rfl⟩]
      split
      · rename_i harm
        simp only [List.tail_cons] at harm
        rw [hq] at harm
        simp only [Prod.mk.injEq, List.cons.injEq, true_and] at harm
        obtain ⟨e1, e2⟩ := harm
        subst e1
        subst e2
        rw [← h1]
        simp [concatSpans_append, concatSpans_flush, concatSpans, ih2]
      · rename_i hnm2 harm
        simp only [List.tail_cons] at harm
        rw [hq] at harm
        simp only [Prod.mk.injEq] at harm
        exact absurd harm.2.symm (fun h2 => hnm2 pst h2)
  | case5 cur c xs hbt hb bc short hnm hq ih =>
    intro h
    obtain ⟨hc, hh⟩ := hb
    subst hc
    cases xs with
    | nil => simp at hh
    | cons d xt =>
      simp only [List.head?_cons, Option.some.injEq] at hh
      subst hh
      simp only [List.tail_cons] at hq
      have h1 := scanBold_append xt
      rw [hq] at h1
      simp only [Prod.fst, Prod.snd] at h1
      have hns : btick ∉ short := by
        intro hm
        apply h
        have hx : btick ∈ xt := by
          rw [← h1]
          exact List.mem_append.mpr (Or.inr hm)
        exact List.mem_cons_of_mem _ (List.mem_cons_of_mem _ hx)
      have ih2 := ih hns
      rw [parse_inline_aux.eq_2, if_neg hbt, dif_pos ⟨rfl, rfl⟩]
      split
      · rename_i harm
        simp only [List.tail_cons] at harm
        rw [hq] at harm
        simp only [Prod.mk.injEq] at harm
        exact absurd harm.2 (fun h2 => hnm _ h2)
      · rename_i hnm2 harm
        simp only [List.tail_cons] at harm
        rw [hq] at harm
        simp only [Prod.mk.injEq] at harm
        obtain ⟨e1, e2⟩ := harm
        subst e1
        subst e2
        rw [← h1]
        simp [concatSpans_append, concatSpans_flush, concatSpans, ih2]
  | case6 cur c xs hbt hnb hi ic hr ih =>
    intro h
    have ih2 := ih (by simp)
    have h1 := breakAt_append c xs
    rw [hr] at h1
    simp only [Prod.fst, Prod.snd, List.append_nil] at h1
    rw [parse_inline_aux.eq_2, if_neg hbt, dif_neg hnb, dif_pos hi]
    split
    · rename_i harm
      rw [hr] at harm
      simp only [Prod.mk.injEq] at harm
      obtain ⟨e1, _⟩ := harm
      subst e1
      rw [← h1]
      simp [concatSpans_append, concatSpans_flush, ih2]
    · rename_i harm
      rw [hr] at harm
      simp at harm
    · rename_i harm
      rw [hr] at harm
      simp at harm
  | case7 cur c xs hbt hnb hi t pst hr ih =>
    intro h
    have ih2 := ih (fun hm => h (List.mem_cons_of_mem _ hm))
    rw [parse_inline_aux.eq_2, if_neg hbt, dif_neg hnb, dif_pos hi]
    split
    · rename_i harm
      rw [hr] at harm
      simp at harm
    · simp [concatSpans_append, concatSpans_flush, ih2]
    · rename_i hne2 harm
      rw [hr] at harm
      simp only [Prod.mk.injEq] at harm
      exact absurd harm.1.symm hne2
  | case8 cur c xs hbt hnb hi ic t pst hne hr ih =>
    intro h
    obtain ⟨ht, h1⟩ := breakAt_snd_eq c xs ic t pst hr
    subst ht
    have hnp : btick ∉ pst := by
      intro hm
      apply h
      refine List.mem_cons_of_mem _ ?_
      rw [← h1]
      exact List.mem_append.mpr (Or.inr (List.mem_cons_of_mem _ hm))
    have ih2 := ih hnp
    rw [parse_inline_aux.eq_2, if_neg hbt, dif_neg hnb, dif_pos hi]
    split
    · rename_i harm
      rw [hr] at harm
      simp at harm
    · rename_i harm
      rw [hr] at harm
      simp only [Prod.mk.injEq] at harm
      exact absurd harm.1 (fun h2 => hne h2)
    · rename_i harm
      rw [hr] at harm
      simp only [Prod.mk.injEq, List.cons.injEq] at harm
      obtain ⟨e1, e2, e3⟩ := harm
      subst e1
      subst e2
      subst e3
      rw [← h1]
      simp [concatSpans_append, concatSpans_flush, concatSpans, ih2]
  | case9 cur xs ltxt xs2 hs lurl pst hu hbt hnb hni ih =>
    intro h
    obtain ⟨_, h1⟩ := breakAt_snd_eq ']' xs ltxt ']' (('(') :: xs2) hs
    obtain ⟨_, h2⟩ := breakAt_snd_eq ')' xs2 lurl ')' pst hu
    have hnp : btick ∉ pst := by
      intro hm
      apply h
      refine List.mem_cons_of_mem _ ?_
      rw [← h1]
      refine List.mem_append.mpr
        (Or.inr (List.mem_cons_of_mem _ (List.mem_cons_of_mem _ ?_)))
      rw [← h2]
      exact List.mem_append.mpr (Or.inr (List.mem_cons_of_mem _ hm))
    have ih2 := ih hnp
    rw [parse_inline_aux.eq_2, if_neg hbt, dif_neg hnb, dif_neg hni, if_pos rfl]
    split
    · rename_i harm
      rw [hs] at harm
      simp only [Prod.mk.injEq, List.cons.injEq, true_and] at harm
      obtain ⟨e1, e2⟩ := harm
      subst e1
      subst e2
      split
      · rename_i harm2
        rw [hu] at harm2
        simp only [Prod.mk.injEq, List.cons.injEq, true_and] at harm2
        obtain ⟨e3, e4⟩ := harm2
        subst e3
        subst e4
        rw [← h1, ← h2]
        simp [concatSpans_append, concatSpans_flush, concatSpans, ih2]
      · rename_i hnm2 harm2
        rw [hu] at harm2
        simp only [Prod.mk.injEq] at harm2
        exact absurd harm2.2.symm (fun h3 => hnm2 pst h3)
    · rename_i hnm2 harm
      rw [hs] at harm
      simp only [Prod.mk.injEq] at harm
      exact absurd harm.2.symm (fun h3 => hnm2 xs2 h3)
  | case10 cur xs ltxt xs2 hs lurl snd2 hnm hu hbt hnb hni ih =>
    intro h
    have ih2 := ih (fun hm => h (List.mem_cons_of_mem _ hm))
    rw [parse_inline_aux.eq_2, if_neg hbt, dif_neg hnb, dif_neg hni, if_pos rfl]
    split
    · rename_i harm
      rw [hs] at harm
      simp only [Prod.mk.injEq, List.cons.injEq, true_and] at harm
      obtain ⟨e1, e2⟩ := harm
      subst e1
      subst e2
      split
      · rename_i harm2
        rw [hu] at harm2
        simp only [Prod.mk.injEq] at harm2
        exact absurd harm2.2 (fun h2 => hnm _ h2)
      · simp [concatSpans_append, concatSpans_flush, ih2]
    · rename_i hnm2 harm
      rw [hs] at harm
      simp only [Prod.mk.injEq] at harm
      exact absurd harm.2.symm (fun h2 => hnm2 xs2 h2)
  | case11 cur xs ltxt snd2 hnm hs hbt hnb hni ih =>
    intro h
    have ih2 := ih (fun hm => h (List.mem_cons_of_mem _ hm))
    rw [parse_inline_aux.eq_2, if_neg hbt, dif_neg hnb, dif_neg hni, if_pos rfl]
    split
    · rename_i harm
      rw [hs] at harm
      simp only [Prod.mk.injEq] at harm
      exact absurd harm.2 (fun h2 => hnm _ h2)
    · simp [concatSpans_append, concatSpans_flush, ih2]
  | case12 cur c xs hbt hnb hni hnl ih =>
    intro h
    have ih2 := ih (fun hm => h (List.mem_cons_of_mem _ hm))
    rw [parse_inline_aux.eq_2, if_neg hbt, dif_neg hnb, dif_neg hni, if_neg hnl]
    simp [ih2]

/-- `parse_inline` loses no characters on backtick-free input. -/
lemma parse_inline_concat (text : List Char) (h : btick ∉ text) :
    concatSpans (parse_inline text) = text := by
  unfold parse_inline
  simpa using parse_inline_aux_concat [] text h

/-! Fence-state replay: the state recomputed by the prefix scan of
`get_highlighted_lines` coincides with the state that `highlight_line`
threads through the window, even though the former sees raw lines (with
their trailing newline) and the latter sees trimmed lines. -/

lemma dropWhile_append_all {p : Char → Bool} {l1 : List Char} (l2 : List Char)
    (h : ∀ a ∈ l1, p a = true) :
    List.dropWhile p (l1 ++ l2) = List.dropWhile p l2 := by
  rw [List.dropWhile_append, if_pos]
  simp only [List.isEmpty_iff, List.dropWhile_eq_nil_iff]
  exact h

lemma dropWhile_append_ne {p : Char → Bool} {l1 : List Char} (l2 : List Char)
    (h : List.dropWhile p l1 ≠ []) :
    List.dropWhile p (l1 ++ l2) = List.dropWhile p l1 ++ l2 := by
  rw [List.dropWhile_append, if_neg]
  simp [List.isEmpty_iff, h]

lemma trimEndNl_decomp (l : List Char) : ∃ k, l = trimEndNl l ++ List.replicate k '\n' := by
  refine ⟨(l.reverse.takeWhile (fun c => c == '\n')).length, ?_⟩
  have hrep : (l.reverse.takeWhile (fun c => c == '\n')).reverse =
      List.replicate (l.reverse.takeWhile (fun c => c == '\n')).length '\n' := by
    rw [List.eq_replicate]
    refine ⟨by simp, ?_⟩
    intro b hb
    rw [List.mem_reverse] at hb
    have := List.mem_takeWhile_imp hb
    simpa using this
  conv_lhs => rw [← l.reverse_reverse, ← List.takeWhile_append_dropWhile (fun c => c == '\n') l.reverse]
  rw [List.reverse_append, hrep]
  rfl

lemma trimEnd_append_nl (x : List Char) (k : Nat) :
    trimEnd (x ++ List.replicate k '\n') = trimEnd x := by
  unfold trimEnd
  rw [List.reverse_append, List.reverse_replicate, dropWhile_append_all]
  intro a ha
  rw [List.mem_replicate] at ha
  rw [ha.2]
  decide

lemma rustTrim_append_nl (x : List Char) (k : Nat) :
    rustTrim (x ++ List.replicate k '\n') = rustTrim x := by
  unfold rustTrim
  rw [trimEnd_append_nl]

lemma trimEndNl_take3_iff (l : List Char) :
    (trimEndNl l).take 3 = fenceDelim ↔ l.take 3 = fenceDelim := by
  obtain ⟨k, hk⟩ := trimEndNl_decomp l
  constructor
  · intro h
    have hlen : 3 ≤ (trimEndNl l).length := by
      have := congrArg List.length h
      simp [fenceDelim] at this
      omega
    conv_lhs => rw [hk]
    rw [List.take_append_eq_append_take, Nat.sub_eq_zero_of_le hlen, List.take_zero,
      List.append_nil]
    exact h
  · intro h
    by_cases hlen : 3 ≤ (trimEndNl l).length
    · rw [hk, List.take_append_eq_append_take, Nat.sub_eq_zero_of_le hlen, List.take_zero,
        List.append_nil] at h
      exact h
    · exfalso
      push_neg at hlen
      have hl3 : 3 ≤ l.length := by
        have := congrArg List.length h
        simp [fenceDelim] at this
        omega

      have hkl : l.length = (trimEndNl l).length + k := by
        conv_lhs => rw [hk]
        simp
      have hmem : '\n' ∈ l.take 3 := by
        conv_lhs => rw [hk]
        rw [List.take_append_eq_append_take]
        refine List.mem_append.mpr (Or.inr ?_)
        rw [List.take_replicate]
        rw [List.mem_replicate]
        exact ⟨by omega, rfl⟩
      rw [h] at hmem
      exact absurd hmem (by decide)

lemma trimStart_trimEndNl (l : List Char) :
    trimStart (trimEndNl l) = trimEndNl (trimStart l) := by
  have hwt := List.takeWhile_append_dropWhile rustIsWhitespace l
  by_cases ht : l.dropWhile rustIsWhitespace = []
  · have hts : trimStart l = [] := ht
    rw [hts]
    have hall : ∀ a ∈ l, rustIsWhitespace a = true := by
      intro a ha
      conv at ha => rw [← hwt]
      rcases List.mem_append.mp ha with h1 | h1
      · exact List.mem_takeWhile_imp h1
      · rw [ht] at h1
        simp at h1
    have : ∀ a ∈ trimEndNl l, rustIsWhitespace a = true := by
      intro a ha
      obtain ⟨k, hk⟩ := trimEndNl_decomp l
      exact hall a (hk ▸ List.mem_append.mpr (Or.inl ha))
    show List.dropWhile rustIsWhitespace (trimEndNl l) = trimEndNl []
    rw [List.dropWhile_eq_nil_iff.mpr this]
    rfl
  · have htnl : trimEndNl (l.dropWhile rustIsWhitespace) ≠ [] := by
      intro h0
      obtain ⟨k, hk⟩ := trimEndNl_decomp (l.dropWhile rustIsWhitespace)
      rw [h0, List.nil_append] at hk
      have hk0 : k ≠ 0 := by
        intro hzero
        rw [hzero] at hk
        simp only [List.replicate_zero] at hk
        exact ht hk
      have hhd : (List.dropWhile rustIsWhitespace l).head? = some '\n' := by
        rw [hk]
        cases k with
        | zero => exact absurd rfl hk0
        | succ k2 => rfl
      have hh := List.head_dropWhile_not rustIsWhitespace l ht
      rw [List.head?_eq_head ht] at hhd
      injection hhd with hv
      rw [hv] at hh
      exact absurd hh (by decide)
    have hrev : List.dropWhile (fun c => c == '\n') (l.dropWhile rustIsWhitespace).reverse ≠ [] := by
      intro h0
      apply htnl
      unfold trimEndNl
      rw [h0]
      rfl
    have hl : trimEndNl l = l.takeWhile rustIsWhitespace ++ trimEndNl (l.dropWhile rustIsWhitespace) := by
      unfold trimEndNl
      conv_lhs => rw [← hwt]
      rw [List.reverse_append, dropWhile_append_ne _ hrev, List.reverse_append,
        List.reverse_reverse]
    rw [hl]
    show List.dropWhile rustIsWhitespace _ = _
    rw [dropWhile_append_all _ (fun a ha => List.mem_takeWhile_imp ha)]
    obtain ⟨k, hk⟩ := trimEndNl_decomp (l.dropWhile rustIsWhitespace)
    cases hpt : trimEndNl (l.dropWhile rustIsWhitespace) with
    | nil => exact absurd hpt htnl
    | cons x xs =>
      have hx : List.dropWhile rustIsWhitespace l = x :: (xs ++ List.replicate k '\n') := by
        conv_lhs => rw [hk]
        rw [hpt]
        rfl
      have hxh : (List.dropWhile rustIsWhitespace l).head? = some x := by
        rw [hx]
        rfl
      have hh := List.head_dropWhile_not rustIsWhitespace l ht
      rw [List.head?_eq_head ht] at hxh
      injection hxh with hv
      rw [hv] at hh
      rw [List.dropWhile_cons_of_neg (by simp [hh])]
      show x :: xs = trimEndNl (List.dropWhile rustIsWhitespace l)
      exact hpt.symm

lemma langOf_trimEndNl {l : List Char} (hf : (trimStart l).take 3 = fenceDelim) :
    langOf (trimEndNl l) = langOf l := by
  unfold langOf
  rw [show trimStart (trimEndNl l) = trimEndNl (trimStart l) from trimStart_trimEndNl l]
  obtain ⟨k, hk⟩ := trimEndNl_decomp (trimStart l)
  have h3 := (trimEndNl_take3_iff (trimStart l)).mpr hf
  have hlen : 3 ≤ (trimEndNl (trimStart l)).length := by
    have := congrArg List.length h3
    simp [fenceDelim] at this
    omega
  conv_rhs => rw [hk]
  rw [List.drop_append_eq_append_drop, Nat.sub_eq_zero_of_le hlen, List.drop_zero,
    rustTrim_append_nl]

lemma fenceToggle_trimEndNl (l : List Char) (h : HlState) :
    fenceToggle (trimEndNl l) h = fenceToggle l h := by
  unfold fenceToggle
  rw [show trimStart (trimEndNl l) = trimEndNl (trimStart l) from trimStart_trimEndNl l]
  by_cases hf : (trimStart l).take 3 = fenceDelim
  · rw [if_pos ((trimEndNl_take3_iff (trimStart l)).mpr hf), if_pos hf,
      langOf_trimEndNl hf]
  · rw [if_neg (fun hh => hf ((trimEndNl_take3_iff (trimStart l)).mp hh)), if_neg hf]

/-- The fence-state effect of `highlight_line` is exactly `fenceToggle`. -/
lemma highlight_line_snd (hc : List Char → List Char → List Span) (content : List Char)
    (st : HlState) : (highlight_line hc content st).2 = fenceToggle content st := by
  unfold highlight_line fenceToggle
  split_ifs <;> try rfl
  all_goals
    (cases hfd : findDotSpace (trimStart content) with
     | none => simp [hfd] <;> split_ifs <;> rfl
     | some pr => cases pr with
       | mk pre rest => simp [hfd] <;> split_ifs <;> rfl)

/-- The state threaded through the highlighted window agrees with the
replayed prefix state at every line, so the spans of line `i + k` depend
only on the document. -/
lemma hlLines_get (hc : List Char → List Char → List Span) (s : List Char) :
    ∀ (n i k : Nat), k < n →
      (hlLines hc s i n (stateUpTo s i)).get? k =
        some (i + k + 1,
          (highlight_line hc (trimEndNl (ropeLine s (i + k))) (stateUpTo s (i + k))).1) := by
  intro n
  induction n with
  | zero =>
    intro i k hk
    exact absurd hk (Nat.not_lt_zero k)
  | succ n ih =>
    intro i k hk
    rw [hlLines]
    have hp2 : (highlight_line hc (trimEndNl (ropeLine s i)) (stateUpTo s i)).2 =
        stateUpTo s (i + 1) := by
      rw [highlight_line_snd, fenceToggle_trimEndNl]
      rfl
    cases k with
    | zero => simp
    | succ k2 =>
      simp only [List.get?_cons_succ]
      rw [hp2, ih (i + 1) k2 (by omega)]
      have he : i + 1 + k2 = i + (k2 + 1) := by omega
      rw [he]

/-- Generic decomposition: a list is its back-trimmed part followed by a
suffix of trimmed-away characters. -/
lemma rev_dropWhile_decomp (p : Char → Bool) (l : List Char) :
    ∃ suf, l = (l.reverse.dropWhile p).reverse ++ suf ∧ ∀ a ∈ suf, p a = true := by
  refine ⟨(l.reverse.takeWhile p).reverse, ?_, ?_⟩
  · conv_lhs => rw [← l.reverse_reverse, ← List.takeWhile_append_dropWhile p l.reverse]
    rw [List.reverse_append]
  · intro a ha
    rw [List.mem_reverse] at ha
    exact List.mem_takeWhile_imp ha

/-- Front-trimming with `p` commutes with back-trimming with `q` whenever
`q` implies `p`. -/
lemma dropWhile_rev_comm {p q : Char → Bool} (hpq : ∀ c, q c = true → p c = true)
    (l : List Char) :
    List.dropWhile p ((l.reverse.dropWhile q).reverse) =
      ((List.dropWhile p l).reverse.dropWhile q).reverse := by
  by_cases ht : List.dropWhile p l = []
  · rw [ht]
    obtain ⟨suf, hsuf, _⟩ := rev_dropWhile_decomp q l
    have hall : ∀ a ∈ l, p a = true := List.dropWhile_eq_nil_iff.mp ht
    have hsub : ∀ a ∈ (l.reverse.dropWhile q).reverse, p a = true := by
      intro a ha
      exact hall a (by rw [hsuf]; exact List.mem_append.mpr (Or.inl ha))
    rw [List.dropWhile_eq_nil_iff.mpr hsub]
    rfl
  · have hqt : List.dropWhile q (List.dropWhile p l).reverse ≠ [] := by
      intro h0
      obtain ⟨suf, hsuf, hsq⟩ := rev_dropWhile_decomp q (List.dropWhile p l)
      rw [h0, List.reverse_nil, List.nil_append] at hsuf
      have hm : (List.dropWhile p l).head ht ∈ suf := by
        rw [← hsuf]
        exact List.head_mem ht
      have hpl := hpq _ (hsq _ hm)
      have hh := List.head_dropWhile_not p l ht
      rw [hh] at hpl
      exact Bool.false_ne_true hpl
    have hsplit : (l.reverse.dropWhile q).reverse =
        List.takeWhile p l ++ ((List.dropWhile p l).reverse.dropWhile q).reverse := by
      conv_lhs => rw [← List.takeWhile_append_dropWhile p l]
      rw [List.reverse_append, dropWhile_append_ne _ hqt, List.reverse_append,
        List.reverse_reverse]
    rw [hsplit, dropWhile_append_all _ (fun a ha => List.mem_takeWhile_imp ha)]
    obtain ⟨suf, hsuf, hsq⟩ := rev_dropWhile_decomp q (List.dropWhile p l)
    cases hpt : ((List.dropWhile p l).reverse.dropWhile q).reverse with
    | nil => rfl
    | cons x xs =>
      have hx : List.dropWhile p l = x :: (xs ++ suf) := by
        conv_lhs => rw [hsuf]
        rw [hpt]
        rfl
      have hxh : (List.dropWhile p l).head? = some x := by
        rw [hx]
        rfl
      rw [List.head?_eq_head ht] at hxh
      injection hxh with hv
      have hh := List.head_dropWhile_not p l ht
      rw [hv] at hh
      rw [List.dropWhile_cons_of_neg (by simp [hh])]

/-- Rust `trim` as back-trim after front-trim. -/
lemma rustTrim_eq (l : List Char) : rustTrim l = trimEnd (trimStart l) :=
  dropWhile_rev_comm (fun _ h => h) l

/-- C2: `getHighlightedLines` windows agree on shared lines -- the span list
produced for a document line is independent of the requested window, because
the fence state replayed from the document start matches the state threaded
through any window that reaches the line. -/
theorem highlight_window_independent (hc : List Char → List Char → List Span)
    (s : List Char) (s1 c1 s2 c2 i : Nat)
    (h1 : s1 ≤ i) (h2 : i < s1 + c1) (h3 : s2 ≤ i) (h4 : i < s2 + c2)
    (h5 : i < numLines s) :
    (get_highlighted_lines hc s s1 c1).get? (i - s1) =
      (get_highlighted_lines hc s s2 c2).get? (i - s2) := by
  have key : ∀ st cnt, st ≤ i → i < st + cnt →
      (get_highlighted_lines hc s st cnt).get? (i - st) =
        some (i + 1,
          (highlight_line hc (trimEndNl (ropeLine s i)) (stateUpTo s i)).1) := by
    intro st cnt hst hcnt
    unfold get_highlighted_lines
    dsimp only
    have hst2 : min st (numLines s) = st := Nat.min_eq_left (by omega)
    rw [hst2]
    have hk : i - st < min (st + cnt) (numLines s) - st := by
      have : st + 1 ≤ min (st + cnt) (numLines s) := by
        apply le_min <;> omega
      omega
    rw [hlLines_get hc s (min (st + cnt) (numLines s) - st) st (i - st) hk,
      Nat.add_sub_cancel' hst]
  rw [key s1 c1 h1 h2, key s2 c2 h3 h4]

/-! The unordered-list branch of the classifier (lib.rs:224-241). -/

lemma utf8Len_append (a b : List Char) : utf8Len (a ++ b) = utf8Len a + utf8Len b := by
  induction a with
  | nil => simp [utf8Len]
  | cons c r ih =>
    simp [utf8Len, ih]
    omega

lemma utf8Len_all_space (w : List Char) (h : ∀ a ∈ w, a = ' ') :
    utf8Len w = w.length := by
  induction w with
  | nil => rfl
  | cons c r ih =>
    have hc : c = ' ' := h c (by simp)
    rw [utf8Len, ih (fun a ha => h a (by simp [ha])), hc]
    rw [show (' ').utf8Size = 1 from by decide, List.length_cons]
    omega

/-- Reduction of `highlight_line` on an unordered-list line: the leading
whitespace is rendered as `indent` ASCII spaces where `indent` is its UTF-8
*byte* length, then the two-character marker, then the inline spans of the
remainder. -/
lemma highlight_line_ulist (hc : List Char → List Char → List Span) (content : List Char)
    (st : HlState) (hcb : st.inCodeBlock = false)
    (hm : (trimStart content).take 2 = ("- ").toList ∨
          (trimStart content).take 2 = ("* ").toList ∨
          (trimStart content).take 2 = ("+ ").toList) :
    highlight_line hc content st =
      (⟨List.replicate (utf8Len content - utf8Len (trimStart content)) ' ', "text"⟩ ::
        ⟨(trimStart content).take 2, "list-marker"⟩ ::
        parse_inline ((trimStart content).drop 2), st) := by
  obtain ⟨m, r, hmem, hts⟩ :
      ∃ m r, (m = '-' ∨ m = '*' ∨ m = '+') ∧ trimStart content = m :: ' ' :: r := by
    rcases hm with h | h | h <;>
    · cases hts0 : trimStart content with
      | nil => rw [hts0] at h; simp at h
      | cons a t =>
        cases t with
        | nil => rw [hts0] at h; simp at h
        | cons b t2 =>
          rw [hts0] at h
          simp at h
          exact ⟨a, t2, by simp [h.1], by rw [h.2]⟩
  have hcont : content = content.takeWhile rustIsWhitespace ++ (m :: ' ' :: r) := by
    rw [← hts]
    exact (List.takeWhile_append_dropWhile rustIsWhitespace content).symm
  have hne : content ≠ [] := by
    intro h0
    rw [h0] at hts
    simp [trimStart] at hts
  have hfence : ¬ (trimStart content).take 3 = fenceDelim := by
    intro hf
    rw [hts] at hf
    simp only [List.take_succ_cons, fenceDelim, List.cons.injEq] at hf
    exact absurd hf.2.1 (by decide)
  have hheadcase : content.head? = some m ∨
      (∃ w0, content.head? = some w0 ∧ rustIsWhitespace w0 = true) := by
    cases hW : content.takeWhile rustIsWhitespace with
    | nil =>
      left
      conv_lhs => rw [hcont]
      rw [hW]
      rfl
    | cons w0 wt =>
      right
      refine ⟨w0, ?_, ?_⟩
      · conv_lhs => rw [hcont]
        rw [hW]
        rfl
      · exact List.mem_takeWhile_imp (by rw [hW]; exact List.mem_cons_self w0 wt)
  have hhash : ¬ content.head? = some '#' := by
    intro hh
    rcases hheadcase with hcase | ⟨w0, hcase, hw⟩
    · rw [hh] at hcase
      injection hcase with he
      rcases hmem with h | h | h <;> rw [h] at he <;> exact absurd he (by decide)
    · rw [hh] at hcase
      injection hcase with he
      rw [← he] at hw
      exact absurd hw (by decide)
  have hquote : ¬ content.head? = some '>' := by
    intro hh
    rcases hheadcase with hcase | ⟨w0, hcase, hw⟩
    · rw [hh] at hcase
      injection hcase with he
      rcases hmem with h | h | h <;> rw [h] at he <;> exact absurd he (by decide)
    · rw [hh] at hcase
      injection hcase with he
      rw [← he] at hw
      exact absurd hw (by decide)
  have hhr : ¬ (rustTrim content = ("---").toList ∨ rustTrim content = ("***").toList ∨
      rustTrim content = ("___").toList) := by
    obtain ⟨suf, hsuf, _⟩ := rev_dropWhile_decomp rustIsWhitespace (trimStart content)
    have hre : rustTrim content = trimEnd (trimStart content) := rustTrim_eq content
    intro hOr
    have hshape : trimStart content = trimEnd (trimStart content) ++ suf := hsuf
    rcases hOr with h | h | h
    · rw [hre, show ("---").toList = ['-', '-', '-'] from rfl] at h
      rw [h, hts] at hshape
      simp only [List.cons_append, List.nil_append, List.cons.injEq] at hshape
      exact absurd hshape.2.1 (by decide)
    · rw [hre, show ("***").toList = ['*', '*', '*'] from rfl] at h
      rw [h, hts] at hshape
      simp only [List.cons_append, List.nil_append, List.cons.injEq] at hshape
      exact absurd hshape.2.1 (by decide)
    · rw [hre, show ("___").toList = ['_', '_', '_'] from rfl] at h
      rw [h, hts] at hshape
      simp only [List.cons_append, List.nil_append, List.cons.injEq] at hshape
      exact absurd hshape.2.1 (by decide)
  show (if (trimStart content).take 3 = fenceDelim then _ else _) = _
  rw [if_neg hfence, if_neg (by simp [hcb]), if_neg hne,
    if_neg (fun hA => hhash hA.1), if_neg hquote, if_neg hhr, if_pos hm]

/-- C6 (amended): on an unordered-list line outside a fenced block the
classifier emits one `"text"` span of as many ASCII spaces as the *byte*
length of the leading whitespace (identical to the indentation only when it
consists of ASCII spaces), then the two-character marker as `"list-marker"`,
then the inline spans of the remainder; the span texts concatenate back to
the original line whenever the leading whitespace is all ASCII spaces and
the remainder after the marker contains no backtick (an unclosed inline-code
delimiter makes the scanner emit the scanned text twice). -/
theorem ulist_line_spans (hc : List Char → List Char → List Span) (content : List Char)
    (st : HlState) (hcb : st.inCodeBlock = false)
    (hm : (trimStart content).take 2 = ("- ").toList ∨
          (trimStart content).take 2 = ("* ").toList ∨
          (trimStart content).take 2 = ("+ ").toList) :
    highlight_line hc content st =
      (⟨List.replicate (utf8Len content - utf8Len (trimStart content)) ' ', "text"⟩ ::
        ⟨(trimStart content).take 2, "list-marker"⟩ ::
        parse_inline ((trimStart content).drop 2), st) ∧
    ((∀ a ∈ content.takeWhile rustIsWhitespace, a = ' ') →
      btick ∉ (trimStart content).drop 2 →
      concatSpans (highlight_line hc content st).1 = content) := by
  refine ⟨highlight_line_ulist hc content st hcb hm, ?_⟩
  intro hsp hbtk
  rw [highlight_line_ulist hc content st hcb hm]
  show List.replicate (utf8Len content - utf8Len (trimStart content)) ' ' ++
      ((trimStart content).take 2 ++ concatSpans (parse_inline ((trimStart content).drop 2))) =
      content
  rw [parse_inline_concat _ hbtk, List.take_append_drop]
  have hwt := List.takeWhile_append_dropWhile rustIsWhitespace content
  have hlen : utf8Len content =
      utf8Len (content.takeWhile rustIsWhitespace) + utf8Len (trimStart content) := by
    conv_lhs => rw [← hwt]
    exact utf8Len_append _ _
  have hind : utf8Len content - utf8Len (trimStart content) =
      (content.takeWhile rustIsWhitespace).length := by
    rw [hlen, utf8Len_all_space _ hsp]
    omega
  have hrepl : List.replicate (content.takeWhile rustIsWhitespace).length ' ' =
      content.takeWhile rustIsWhitespace := by
    symm
    rw [List.eq_replicate]
    exact ⟨rfl, hsp⟩
  rw [hind, hrepl]
  exact hwt

/-- Witness for C6 at the line `"  - hi"` (two-space indent). -/
theorem ulist_line_spans_witness :
    ((HlState.mk false []).inCodeBlock = false ∧
      (trimStart (("  - hi").toList)).take 2 = ("- ").toList) ∧
    (highlight_line hcDefault (("  - hi").toList) ⟨false, []⟩ =
      (⟨List.replicate (utf8Len (("  - hi").toList) - utf8Len (trimStart (("  - hi").toList))) ' ',
          "text"⟩ ::
        ⟨(trimStart (("  - hi").toList)).take 2, "list-marker"⟩ ::
        parse_inline ((trimStart (("  - hi").toList)).drop 2), ⟨false, []⟩) ∧
      ((∀ a ∈ (("  - hi").toList).takeWhile rustIsWhitespace, a = ' ') →
        btick ∉ (trimStart (("  - hi").toList)).drop 2 →
        concatSpans (highlight_line hcDefault (("  - hi").toList) ⟨false, []⟩).1 =
          ("  - hi").toList)) :=
  ⟨⟨rfl, by decide⟩,
   ulist_line_spans hcDefault (("  - hi").toList) ⟨false, []⟩ rfl (Or.inl (by decide))⟩

/-- Evaluation of the inline formatter on the unclosed inline-code input
made of a backtick followed by `x`: the scanned content is emitted twice. -/
lemma parse_inline_unclosed_btick_eval :
    parse_inline (btick :: ('x' :: [])) = [⟨btick :: ('x' :: ('x' :: [])), "text"⟩] := by
  unfold parse_inline
  rw [parse_inline_aux.eq_2, if_pos rfl]
  split
  · rename_i code harm
    rw [show breakAt btick (('x' : Char) :: []) = (('x' :: []), ([] : List Char)) from by decide]
      at harm
    simp only [Prod.mk.injEq] at harm
    obtain ⟨e1, _⟩ := harm
    subst e1
    rw [parse_inline_aux.eq_2, if_neg (by decide : ¬ ('x' : Char) = btick),
      dif_neg (by decide : ¬ (('x' : Char) = '*' ∧ (([] : List Char)).head? = some '*')),
      dif_neg (by decide : ¬ (('x' : Char) = '*' ∨ ('x' : Char) = '_')),
      if_neg (by decide : ¬ ('x' : Char) = '[')]
    rw [show ([btick, 'x'] : List Char) ++ ['x'] = [btick, 'x', 'x'] from rfl,
      parse_inline_aux.eq_1]
    simp [flushCur]
  · rename_i code t pst harm
    rw [show breakAt btick (('x' : Char) :: []) = (('x' :: []), ([] : List Char)) from by decide]
      at harm
    simp at harm

/-- C6 counterexample.  First, on the tab-indented list line `"\t- a"` the
first span is a single ASCII space -- the tab is not preserved verbatim --
and the concatenated span texts differ from the original line.  Second, on
the space-free list line `"- `x"` (whose leading whitespace is vacuously all
ASCII spaces) the unclosed inline-code delimiter makes the scanner emit `x`
twice, so the concatenation differs from the original line there too. -/
theorem ulist_tab_indent_counterexample :
    ((trimStart (("\t- a").toList)).take 2 = ("- ").toList ∧
      (highlight_line hcDefault (("\t- a").toList) ⟨false, []⟩).1.head? =
        some ⟨(" ").toList, "text"⟩ ∧
      concatSpans (highlight_line hcDefault (("\t- a").toList) ⟨false, []⟩).1 ≠
        ("\t- a").toList) ∧
    ((trimStart (("- `x").toList)).take 2 = ("- ").toList ∧
      (∀ a ∈ (("- `x").toList).takeWhile rustIsWhitespace, a = ' ') ∧
      concatSpans (highlight_line hcDefault (("- `x").toList) ⟨false, []⟩).1 ≠
        ("- `x").toList) := by
  have hl := highlight_line_ulist hcDefault (("\t- a").toList) ⟨false, []⟩ rfl
    (Or.inl (by decide))
  have hl2 := highlight_line_ulist hcDefault (("- `x").toList) ⟨false, []⟩ rfl
    (Or.inl (by decide))
  refine ⟨⟨by decide, ?_, ?_⟩, by decide, by decide, ?_⟩
  · rw [hl]
    decide
  · rw [hl]
    show List.replicate (utf8Len (("\t- a").toList) - utf8Len (trimStart (("\t- a").toList))) ' ' ++
        ((trimStart (("\t- a").toList)).take 2 ++
          concatSpans (parse_inline ((trimStart (("\t- a").toList)).drop 2))) ≠
        ("\t- a").toList
    rw [parse_inline_concat _ (by decide)]
    decide
  · rw [hl2]
    rw [show (trimStart (("- `x").toList)).drop 2 = btick :: ('x' :: []) from by decide,
      parse_inline_unclosed_btick_eval]
    decide

/-- C10: an empty line outside a fenced code block is rendered as exactly one
empty `"text"` span, and the fence state is unchanged. -/
theorem empty_line_single_text_span (hc : List Char → List Char → List Span)
    (st : HlState) (h : st.inCodeBlock = false) :
    highlight_line hc [] st = ([⟨[], "text"⟩], st) := by
  unfold highlight_line
  rw [if_neg (by decide : ¬ (trimStart ([] : List Char)).take 3 = fenceDelim),
    if_neg (by simp [h]), if_pos rfl]

/-- Witness for C10. -/
theorem empty_line_single_text_span_witness :
    (HlState.mk false []).inCodeBlock = false ∧
    highlight_line hcDefault [] ⟨false, []⟩ = ([⟨[], "text"⟩], ⟨false, []⟩) :=
  ⟨rfl, empty_line_single_text_span hcDefault ⟨false, []⟩ rfl⟩

/-- Witness for C2: a document with a `python` block then a `js` block; the
full-document window and a window starting inside the second block agree on
line 4. -/
theorem highlight_window_independent_witness :
    (0 ≤ 4 ∧ 4 < 0 + 6 ∧ 4 ≤ 4 ∧ 4 < 4 + 2 ∧
      4 < numLines (("```py\na\n```\n```js\nb\n").toList)) ∧
    (get_highlighted_lines hcDefault (("```py\na\n```\n```js\nb\n").toList) 0 6).get? (4 - 0) =
      (get_highlighted_lines hcDefault (("```py\na\n```\n```js\nb\n").toList) 4 2).get? (4 - 4) :=
  ⟨⟨by decide, by decide, by decide, by decide, by decide⟩,
   highlight_window_independent hcDefault (("```py\na\n```\n```js\nb\n").toList) 0 6 4 2 4
     (by decide) (by decide) (by decide) (by decide) (by decide)⟩

/-! Editor session state: the thread-local cells of lib.rs:20-26 and
lib.rs:147-150, and the operations over them.  Stacks are `List`s in `Vec`
order: index 0 is the oldest entry, `push` appends at the end. -/

/-- The per-session mutable state: buffer, cursor, selection, the two
undo/redo stacks of `(content, cursor)` snapshots, and the two fence-tracking
cells cleared by `reset_highlighting_state`. -/
structure EditorState where
  buffer : List Char
  cursor : Nat
  selection : Option (Nat × Nat)
  undoStack : List (List Char × Nat)
  redoStack : List (List Char × Nat)
  inCodeBlockCell : Bool
  codeLangCell : List Char
deriving DecidableEq

/-- The freshly initialized session (all cells at their `thread_local`
initializers). -/
def initState : EditorState := ⟨[], 0, none, [], [], false, []⟩

/-- `set_content` (lib.rs:30): replace the buffer wholesale. -/
def set_content_op (st : EditorState) (text : List Char) : EditorState :=
  { st with buffer := text }

/-- `insert_at` acting on the session state. -/
def insert_at_op (st : EditorState) (pos : Nat) (text : List Char) : EditorState :=
  { st with buffer := insert_at st.buffer pos text }

/-- `delete_range` acting on the session state. -/
def delete_range_op (st : EditorState) (a b : Nat) : EditorState :=
  { st with buffer := delete_range st.buffer a b }

/-- `replace_range` (lib.rs:1720): clamp, delete if nonempty, insert, and
return the new cursor offset `start + |text|` (the cursor cell itself is not
written). -/
def replace_range_op (st : EditorState) (a b : Nat) (text : List Char) :
    EditorState × Nat :=
  let s := min a st.buffer.length
  let e := min b st.buffer.length
  let nb := if s < e then st.buffer.take s ++ st.buffer.drop e else st.buffer
  ({ st with buffer := nb.take s ++ text ++ nb.drop s }, s + text.length)

/-- `set_cursor` (lib.rs:1482): clamp to the buffer length. -/
def set_cursor_op (st : EditorState) (pos : Nat) : EditorState :=
  { st with cursor := min pos st.buffer.length }

/-- `set_selection` (lib.rs:1533): clamp both endpoints, store normalized. -/
def set_selection_op (st : EditorState) (a b : Nat) : EditorState :=
  let a2 := min a st.buffer.length
  let b2 := min b st.buffer.length
  { st with selection := some (min a2 b2, max a2 b2) }

/-- `clear_selection` (lib.rs:1546). -/
def clear_selection_op (st : EditorState) : EditorState :=
  { st with selection := none }

/-- `save_undo_state` (lib.rs:1597): push the current `(content, cursor)`
snapshot unless its content equals the top of the undo stack; evict the
oldest entry when the stack exceeds 100; always clear the redo stack. -/
def save_undo_state (st : EditorState) : EditorState :=
  let content := st.buffer
  let cursor := st.cursor
  let stack1 :=
    if st.undoStack.getLast?.map Prod.fst = some content then st.undoStack
    else
      let s2 := st.undoStack ++ [(content, cursor)]
      if 100 < s2.length then s2.tail else s2
  { st with undoStack := stack1, redoStack := [] }

/-- `undo` (lib.rs:1615): pop the undo stack; if empty return `false`
unchanged, else push the current snapshot onto redo and restore buffer and
(clamped, via `set_cursor`) cursor from the popped entry. -/
def undo (st : EditorState) : EditorState × Bool :=
  match st.undoStack.getLast? with
  | some (pc, pcur) =>
    ({ st with
        undoStack := st.undoStack.dropLast,
        redoStack := st.redoStack ++ [(st.buffer, st.cursor)],
        buffer := pc,
        cursor := min pcur pc.length }, true)
  | none => (st, false)

/-- `redo` (lib.rs:1636): symmetric to `undo` with the stacks exchanged. -/
def redo (st : EditorState) : EditorState × Bool :=
  match st.redoStack.getLast? with
  | some (nc, ncur) =>
    ({ st with
        redoStack := st.redoStack.dropLast,
        undoStack := st.undoStack ++ [(st.buffer, st.cursor)],
        buffer := nc,
        cursor := min ncur nc.length }, true)
  | none => (st, false)

/-- `clear_undo_redo` (lib.rs:1669). -/
def clear_undo_redo (st : EditorState) : EditorState :=
  { st with undoStack := [], redoStack := [] }

/-- `reset_highlighting_state` (lib.rs:1471): clear the two fence cells. -/
def reset_highlighting_state (st : EditorState) : EditorState :=
  { st with inCodeBlockCell := false, codeLangCell := [] }

/-- `get_highlighted_lines` as called on the session state: it reads only
the buffer cell (lib.rs:1432). -/
def get_highlighted_lines_session (hc : List Char → List Char → List Span)
    (st : EditorState) (start count : Nat) : List (Nat × List Span) :=
  get_highlighted_lines hc st.buffer start count

/-- States reachable from the fresh session by any sequence of API calls. -/
inductive Reachable : EditorState → Prop
  | init : Reachable initState
  | setContent {st} (t : List Char) : Reachable st → Reachable (set_content_op st t)
  | insertAt {st} (p : Nat) (t : List Char) : Reachable st → Reachable (insert_at_op st p t)
  | deleteRange {st} (a b : Nat) : Reachable st → Reachable (delete_range_op st a b)
  | replaceRange {st} (a b : Nat) (t : List Char) : Reachable st →
      Reachable (replace_range_op st a b t).1
  | setCursor {st} (p : Nat) : Reachable st → Reachable (set_cursor_op st p)
  | setSelection {st} (a b : Nat) : Reachable st → Reachable (set_selection_op st a b)
  | clearSelection {st} : Reachable st → Reachable (clear_selection_op st)
  | saveUndo {st} : Reachable st → Reachable (save_undo_state st)
  | undoStep {st} : Reachable st → Reachable (undo st).1
  | redoStep {st} : Reachable st → Reachable (redo st).1
  | clearUndoRedo {st} : Reachable st → Reachable (clear_undo_redo st)
  | resetHighlighting {st} : Reachable st → Reachable (reset_highlighting_state st)

/-- The combined size of the two stacks never exceeds 100 on reachable
states: edits leave the stacks alone, `save_undo_state` caps the undo stack
at 100 and empties redo, and `undo`/`redo` move one entry between stacks. -/
lemma stacks_sum_le (st : EditorState) (h : Reachable st) :
    st.undoStack.length + st.redoStack.length ≤ 100 := by
  induction h with
  | init => simp [initState]
  | setContent t _ ih => exact ih
  | insertAt p t _ ih => exact ih
  | deleteRange a b _ ih => exact ih
  | replaceRange a b t _ ih => exact ih
  | setCursor p _ ih => exact ih
  | setSelection a b _ ih => exact ih
  | clearSelection _ ih => exact ih
  | saveUndo _ ih =>
    rename_i st2 _
    unfold save_undo_state
    dsimp only
    split
    · simpa using (by omega : st2.undoStack.length ≤ 100)
    · split
      · rename_i hlen
        simp only [List.length_tail, List.length_append, List.length_cons,
          List.length_nil, List.length_nil]
        omega
      · rename_i hlen
        simp only [List.length_append, List.length_cons, List.length_nil] at hlen ⊢
        omega
  | undoStep _ ih =>
    rename_i st2 _
    unfold undo
    cases hg : st2.undoStack.getLast? with
    | none => simpa using ih
    | some pr =>
      cases pr with
      | mk pc pcur =>
        have hne : st2.undoStack ≠ [] := by
          intro h0
          rw [h0] at hg
          simp at hg
        simp only [List.length_dropLast, List.length_append, List.length_cons,
          List.length_nil]
        have : 1 ≤ st2.undoStack.length := by
          cases hu : st2.undoStack with
          | nil => exact absurd hu hne
          | cons x t => simp
        omega
  | redoStep _ ih =>
    rename_i st2 _
    unfold redo
    cases hg : st2.redoStack.getLast? with
    | none => simpa using ih
    | some pr =>
      cases pr with
      | mk nc ncur =>
        have hne : st2.redoStack ≠ [] := by
          intro h0
          rw [h0] at hg
          simp at hg
        simp only [List.length_dropLast, List.length_append, List.length_cons,
          List.length_nil]
        have : 1 ≤ st2.redoStack.length := by
          cases hu : st2.redoStack with
          | nil => exact absurd hu hne
          | cons x t => simp
        omega
  | clearUndoRedo _ ih => simp [clear_undo_redo]
  | resetHighlighting _ ih => exact ih

/-- C5: on every reachable state both history stacks hold at most 100
entries, and `save_undo_state` clears the redo stack, skips the push when
the top content matches, pushes when the stack is below the cap, and evicts
the oldest entry (index 0) when the push would exceed 100 entries. -/
theorem undo_stacks_bounded (st : EditorState) (h : Reachable st) :
    st.undoStack.length ≤ 100 ∧ st.redoStack.length ≤ 100 ∧
    (save_undo_state st).redoStack = [] ∧
    (save_undo_state st).undoStack.length ≤ 100 ∧
    (st.undoStack.getLast?.map Prod.fst = some st.buffer →
      (save_undo_state st).undoStack = st.undoStack) ∧
    (st.undoStack.getLast?.map Prod.fst ≠ some st.buffer →
      st.undoStack.length < 100 →
      (save_undo_state st).undoStack = st.undoStack ++ [(st.buffer, st.cursor)]) ∧
    (st.undoStack.getLast?.map Prod.fst ≠ some st.buffer →
      st.undoStack.length = 100 →
      (save_undo_state st).undoStack = (st.undoStack ++ [(st.buffer, st.cursor)]).tail) := by
  have hsum := stacks_sum_le st h
  refine ⟨by omega, by omega, rfl, ?_, ?_, ?_, ?_⟩
  · unfold save_undo_state
    dsimp only
    split
    · omega
    · split
      · rename_i hlen
        simp only [List.length_tail, List.length_append, List.length_cons, List.length_nil]
        omega
      · rename_i hlen
        simp only [List.length_append, List.length_cons, List.length_nil] at hlen ⊢
        omega
  · intro hsame
    unfold save_undo_state
    dsimp only
    rw [if_pos hsame]
  · intro hdiff hlt
    unfold save_undo_state
    dsimp only
    rw [if_neg hdiff, if_neg (by simp; omega)]
  · intro hdiff heq
    unfold save_undo_state
    dsimp only
    rw [if_neg hdiff, if_pos (by simp; omega)]

/-- Witness for C5 at the initial state. -/
theorem undo_stacks_bounded_witness :
    Reachable initState ∧
    (initState.undoStack.length ≤ 100 ∧ initState.redoStack.length ≤ 100 ∧
      (save_undo_state initState).redoStack = [] ∧
      (save_undo_state initState).undoStack.length ≤ 100 ∧
      (initState.undoStack.getLast?.map Prod.fst = some initState.buffer →
        (save_undo_state initState).undoStack = initState.undoStack) ∧
      (initState.undoStack.getLast?.map Prod.fst ≠ some initState.buffer →
        initState.undoStack.length < 100 →
        (save_undo_state initState).undoStack =
          initState.undoStack ++ [(initState.buffer, initState.cursor)]) ∧
      (initState.undoStack.getLast?.map Prod.fst ≠ some initState.buffer →
        initState.undoStack.length = 100 →
        (save_undo_state initState).undoStack =
          (initState.undoStack ++ [(initState.buffer, initState.cursor)]).tail)) :=
  ⟨Reachable.init, undo_stacks_bounded initState Reachable.init⟩

/-- C3 (amended): `undo` on an empty stack is a no-op returning `false`;
otherwise it pops the top entry, pushes the current snapshot onto redo,
restores the popped content, and sets the cursor to the popped cursor
clamped to the restored content's length; `redo` is symmetric. -/
theorem undo_redo_pop_restore (st : EditorState) :
    (st.undoStack = [] → undo st = (st, false)) ∧
    (∀ u pc pcur, st.undoStack = u ++ [(pc, pcur)] →
      undo st = ({ st with
        undoStack := u
        redoStack := st.redoStack ++ [(st.buffer, st.cursor)]
        buffer := pc
        cursor := min pcur pc.length }, true)) ∧
    (st.redoStack = [] → redo st = (st, false)) ∧
    (∀ u nc ncur, st.redoStack = u ++ [(nc, ncur)] →
      redo st = ({ st with
        redoStack := u
        undoStack := st.undoStack ++ [(st.buffer, st.cursor)]
        buffer := nc
        cursor := min ncur nc.length }, true)) := by
  refine ⟨?_, ?_, ?_, ?_⟩
  · intro h0
    unfold undo
    rw [h0]
    rfl
  · intro u pc pcur hu
    unfold undo
    rw [hu, List.getLast?_concat, List.dropLast_concat]
  · intro h0
    unfold redo
    rw [h0]
    rfl
  · intro u nc ncur hu
    unfold redo
    rw [hu, List.getLast?_concat, List.dropLast_concat]

/-- A session state with one entry on each history stack, for the C3
witness. -/
def undoWitnessState : EditorState :=
  ⟨("x").toList, 1, none, [(("ab").toList, 2)], [(("cd").toList, 9)], false, []⟩

/-- Witness for C3: the no-op case at the fresh session and the pop case on
a state with one entry on each stack. -/
theorem undo_redo_pop_restore_witness :
    (initState.undoStack = [] ∧ undo initState = (initState, false)) ∧
    (undoWitnessState.undoStack = [] ++ [(("ab").toList, 2)] ∧
      undo undoWitnessState =
        ({ undoWitnessState with
            undoStack := ([] : List (List Char × Nat))
            redoStack := undoWitnessState.redoStack ++
              [(undoWitnessState.buffer, undoWitnessState.cursor)]
            buffer := ("ab").toList
            cursor := min 2 (("ab").toList).length }, true)) ∧
    (undoWitnessState.redoStack = [] ++ [(("cd").toList, 9)] ∧
      redo undoWitnessState =
        ({ undoWitnessState with
            redoStack := ([] : List (List Char × Nat))
            undoStack := undoWitnessState.undoStack ++
              [(undoWitnessState.buffer, undoWitnessState.cursor)]
            buffer := ("cd").toList
            cursor := min 9 (("cd").toList).length }, true)) :=
  ⟨⟨rfl, (undo_redo_pop_restore initState).1 rfl⟩,
   ⟨rfl, (undo_redo_pop_restore undoWitnessState).2.1 [] (("ab").toList) 2 rfl⟩,
   ⟨rfl, (undo_redo_pop_restore undoWitnessState).2.2.2 [] (("cd").toList) 9 rfl⟩⟩

/-- The reachable state used in the C3 counterexample: delete under a
cursor at offset 5, snapshot, then insert, so the top undo entry carries a
cursor (5) larger than its content (the empty buffer). -/
def undoClampState : EditorState :=
  insert_at_op (save_undo_state (delete_range_op (set_cursor_op
    (set_content_op initState (("hello").toList)) 5) 0 5)) 0 (("x").toList)

/-- C3 counterexample: `undo` here pops the entry `([], 5)` and returns
`true`, but the restored cursor is 0, not the popped entry's cursor 5 --
`set_cursor` clamps it to the restored content's length. -/
theorem undo_cursor_clamp_counterexample :
    Reachable undoClampState ∧
    undoClampState.undoStack.getLast? = some ([], 5) ∧
    (undo undoClampState).2 = true ∧
    (undo undoClampState).1.buffer = [] ∧
    (undo undoClampState).1.cursor = 0 ∧
    ¬ (undo undoClampState).1.cursor = 5 := by
  refine ⟨?_, by decide, by decide, by decide, by decide, by decide⟩
  exact Reachable.insertAt 0 (("x").toList)
    (Reachable.saveUndo (Reachable.deleteRange 0 5
      (Reachable.setCursor 5 (Reachable.setContent (("hello").toList) Reachable.init))))

/-- C9: neither `undo` nor `redo` touches the stored selection, whether or
not there was anything to pop. -/
theorem undo_redo_preserve_selection (st : EditorState) :
    (undo st).1.selection = st.selection ∧ (redo st).1.selection = st.selection := by
  refine ⟨?_, ?_⟩
  · unfold undo
    cases st.undoStack.getLast? with
    | none => rfl
    | some pr => cases pr; rfl
  · unfold redo
    cases st.redoStack.getLast? with
    | none => rfl
    | some pr => cases pr; rfl

/-- C8: `get_highlighted_lines` depends only on the buffer cell: states with
equal buffers yield equal results, and `reset_highlighting_state` (which
clears only the fence cells) never changes the result. -/
theorem get_highlighted_lines_pure (hc : List Char → List Char → List Span)
    (st1 st2 : EditorState) (start count : Nat) (hb : st1.buffer = st2.buffer) :
    get_highlighted_lines_session hc st1 start count =
      get_highlighted_lines_session hc st2 start count ∧
    get_highlighted_lines_session hc (reset_highlighting_state st1) start count =
      get_highlighted_lines_session hc st1 start count := by
  unfold get_highlighted_lines_session reset_highlighting_state
  exact ⟨by rw [hb], rfl⟩

/-- Witness for C8: two states sharing a buffer but with different cursors,
selections, stacks and fence cells. -/
theorem get_highlighted_lines_pure_witness :
    (EditorState.mk (("# t").toList) 0 none [] [] true (("js").toList)).buffer =
      (EditorState.mk (("# t").toList) 3 (some (1, 2)) [([], 0)] [] false []).buffer ∧
    (get_highlighted_lines_session hcDefault
        (EditorState.mk (("# t").toList) 0 none [] [] true (("js").toList)) 0 5 =
      get_highlighted_lines_session hcDefault
        (EditorState.mk (("# t").toList) 3 (some (1, 2)) [([], 0)] [] false []) 0 5 ∧
    get_highlighted_lines_session hcDefault
        (reset_highlighting_state
          (EditorState.mk (("# t").toList) 0 none [] [] true (("js").toList))) 0 5 =
      get_highlighted_lines_session hcDefault
        (EditorState.mk (("# t").toList) 0 none [] [] true (("js").toList)) 0 5) :=
  ⟨rfl, get_highlighted_lines_pure hcDefault
    (EditorState.mk (("# t").toList) 0 none [] [] true (("js").toList))
    (EditorState.mk (("# t").toList) 3 (some (1, 2)) [([], 0)] [] false []) 0 5 rfl⟩

end MdCore
